import Mathlib

/-!
Verification of the skill-extraction and resume-job matching engine
(src/core/extractor.py: classes NLPSkillExtractor and ResumeJobMatcher).

Modelling conventions:
* The external tokenizer (spaCy) is not re-specified by the design; a
  tokenized document is a list of tokens, each carrying its surface text
  and its trailing whitespace, so that the text of a multi-token span can
  be reassembled exactly as spaCy does (`span.text`).
* Python sets of strings are represented by lists queried through
  membership only; Python dicts (which preserve insertion order) are
  represented by association lists updated in place.
* Python `str.lower` is modelled per character (`strLower`), and Python
  string comparison (code-point lexicographic) by `charLe`/`strLe`; both
  agree with Python on the ASCII data the program handles.  These custom
  versions are used instead of `String.toLower`/`String ≤` because they
  reduce inside the kernel.
* Python `sorted` on distinct strings is modelled by `List.insertionSort`
  over the decidable order `StrLe` (for an antisymmetric total order the
  sorted permutation is unique, so the choice of algorithm is irrelevant).
* Python floats are modelled by exact rationals; `round(x, 2)` is
  modelled by round-half-to-even at two decimals (`pyRound2`), which is
  the documented behaviour of Python `round`.
-/

/-- A token produced by the external tokenizer: its surface text and the
whitespace that follows it in the original document. -/
structure Tok where
  text : String
  ws : String

/-- Concatenation of the surface text of a contiguous token span, with each
token followed by its trailing whitespace except the last (spaCy
`span.text`). -/
def spanText : List Tok → String
  | [] => ""
  | [t] => t.text
  | t :: u :: ts => t.text ++ t.ws ++ spanText (u :: ts)

/-- Per-character lowercase map: model of Python `str.lower` on ASCII. -/
def strLower (s : String) : String := ⟨s.data.map Char.toLower⟩

/-- Lexicographic comparison of character lists by code point: model of
Python string `<=`. -/
def charLe : List Char → List Char → Bool
  | [], _ => true
  | _ :: _, [] => false
  | a :: as, b :: bs => if a = b then charLe as bs else decide (a < b)

/-- Python string order (code-point lexicographic), as a Bool. -/
def strLe (a b : String) : Bool := charLe a.data b.data

/-- Python string order as a Prop, for use with `List.insertionSort` and
`List.Sorted`. -/
def StrLe (a b : String) : Prop := strLe a b = true

instance : DecidableRel StrLe := fun a b => inferInstanceAs (Decidable (strLe a b = true))

/-- The skill extractor state after initialization: the taxonomy
(`self.skills`, a set of lowercase skill names) and the variation index
(`self.skill_variations`, canonical skill ↦ set of alternate lowercase
spellings). -/
structure NLPSkillExtractor where
  skills : List String
  skill_variations : List (String × List String)

/-- One recorded observation: the (start index, window length) of the span
it came from, the canonical key it is recorded under, and the surface
text appended to `found_skills[key]`. -/
abbrev SkillEvent := (Nat × Nat) × String × String

/-- Method 1 of `extract_best_format` (single-token matching): for each
token whose lowercase form is a taxonomy member, record the original text
under the lowercase key.  A token at index `i` is the span `(i, 1)`. -/
def pass1Events (E : NLPSkillExtractor) (doc : List Tok) : List SkillEvent :=
  doc.enum.filterMap fun it =>
    let tl := strLower it.2.text
    if E.skills.contains tl then some ((it.1, 1), tl, it.2.text) else none

/-- Variation lookup inside the sliding window: for every
(canonical, variation set) pair whose variation set contains the lowercase
span text, record the span text under the canonical key. -/
def varEvents (vars : List (String × List String)) (pos : Nat × Nat)
    (sl s : String) : List SkillEvent :=
  vars.filterMap fun cv => if cv.2.contains sl then some (pos, cv.1, s) else none

/-- Method 2 of `extract_best_format` (sliding window of lengths 1–3): for
each start index and each window length that does not run past the end of
the document, check the lowercase span text against the taxonomy and then
against every variation set.  The Python `break` on `i + length > len(doc)`
is equivalent to the length filter because lengths increase. -/
def pass2Events (E : NLPSkillExtractor) (doc : List Tok) : List SkillEvent :=
  (List.range doc.length).flatMap fun i =>
    (([1, 2, 3].filter fun len => decide (i + len ≤ doc.length)).flatMap fun len =>
      let s := spanText ((doc.drop i).take len)
      let sl := strLower s
      (if E.skills.contains sl then [((i, len), sl, s)] else []) ++
        varEvents E.skill_variations (i, len) sl s)

/-- All observations recorded by `extract_best_format`, in program order:
the whole single-token pass, then the sliding-window pass. -/
def recordEvents (E : NLPSkillExtractor) (doc : List Tok) : List SkillEvent :=
  pass1Events E doc ++ pass2Events E doc

/-- `found_skills[k].append(s)`, creating the entry if the key is absent:
ordered-dict update on an association list. -/
def addObs : List (String × List String) → String → String → List (String × List String)
  | [], k, s => [(k, [s])]
  | p :: m, k, s => if p.1 == k then (p.1, p.2 ++ [s]) :: m else p :: addObs m k s

/-- Accumulate a list of observation events into the `found_skills`
ordered dict (canonical key ↦ observed surface strings, in order, with
duplicates kept — frequency matters to the format selector). -/
def accumulate (es : List SkillEvent) : List (String × List String) :=
  es.foldl (fun m e => addObs m e.2.1 e.2.2) []

/-- The `found_skills` dict built by `extract_best_format` for a document. -/
def found_skills (E : NLPSkillExtractor) (doc : List Tok) : List (String × List String) :=
  accumulate (recordEvents E doc)

/-- Model of Python per-character `c.isupper()`/`c.islower()` tests and of
`str.isupper`/`str.islower` (ASCII: a string is upper iff it has a cased
character and no lowercase one, and dually). -/
def isCased (c : Char) : Bool := c.isUpper || c.isLower

/-- ASCII model of Python `str.isupper`. -/
def pyIsUpper (s : String) : Bool :=
  s.data.any isCased && s.data.all fun c => !c.isLower

/-- ASCII model of Python `str.islower`. -/
def pyIsLower (s : String) : Bool :=
  s.data.any isCased && s.data.all fun c => !c.isUpper

/-- `_format_quality_score`: additive quality of one observed spelling.
+10 mixed case, +5 any of `+ # . - /`, +2 all-uppercase of length > 1,
+1 all-lowercase. -/
def format_quality_score (s : String) : Nat :=
  (if s.data.any Char.isUpper && s.data.any Char.isLower then 10 else 0) +
  (if ['+', '#', '.', '-', '/'].any (fun c => s.data.contains c) then 5 else 0) +
  (if pyIsUpper s && decide (1 < s.length) then 2 else 0) +
  (if pyIsLower s then 1 else 0)

/-- Left fold returning the earliest element of `x :: xs` with the maximal
value of `q`.  This is both `Counter.most_common(1)[0]` (with `q` = count:
ties go to the first-inserted key) and
`sorted(formats, key=q, reverse=True)[0]` (Python sort is stable, so ties
go to the earliest-listed element). -/
def argmaxList (q : String → Nat) (x : String) (xs : List String) : String :=
  xs.foldl (fun b y => if q b < q y then y else b) x

/-- `_pick_best_format`: single observation returned unchanged; otherwise
the most frequent exact string if its count exceeds one; otherwise the
earliest observation with maximal quality score.  `none` models the
`IndexError` Python would raise on an empty list (never reached: every
`found_skills` entry is non-empty). -/
def pick_best_format : List String → Option String
  | [] => none
  | [f] => some f
  | f :: g :: rest =>
    let formats := f :: g :: rest
    let mc := argmaxList (fun s => formats.count s) f (g :: rest)
    if 1 < formats.count mc then some mc
    else some (argmaxList format_quality_score f (g :: rest))

/-- `extract_best_format`: accumulate all observations, collapse each
canonical key to one display string, and return the sorted list. -/
def extract_best_format (E : NLPSkillExtractor) (doc : List Tok) : List String :=
  List.insertionSort StrLe
    ((found_skills E doc).filterMap fun p => pick_best_format p.2)

/-- Modelled from the spec (§9 open question): the variant extractor that
deduplicates at accumulation, recording each text occurrence (span
position) at most once per canonical key.  `dedupEvents seen es` keeps an
event only when no earlier event had the same (span position, canonical
key). -/
def dedupEvents (seen : List ((Nat × Nat) × String)) :
    List SkillEvent → List SkillEvent
  | [] => []
  | e :: es =>
    if seen.contains (e.1, e.2.1) then dedupEvents seen es
    else e :: dedupEvents ((e.1, e.2.1) :: seen) es

/-- Modelled from the spec: `extract` with per-occurrence-per-key
deduplicated accumulation, the comparison point of the refinement claim. -/
def extract_best_format_dedup (E : NLPSkillExtractor) (doc : List Tok) : List String :=
  List.insertionSort StrLe
    ((accumulate (dedupEvents [] (recordEvents E doc))).filterMap fun p =>
      pick_best_format p.2)

/-- The single-letter exception in `_load_or_build_skills`. -/
def strR : String := "r"

/-- The post-filter of `_load_or_build_skills`: drop single-character
entries except "r" (case-insensitive). -/
def filterSingle (skills : List String) : List String :=
  skills.filter fun s => decide (1 < s.length) || (strLower s == strR)

/-- Structural prefix test on character lists. -/
def isPrefixChars : List Char → List Char → Bool
  | [], _ => true
  | _ :: _, [] => false
  | a :: as, b :: bs => decide (a = b) && isPrefixChars as bs

/-- Structural contiguous-substring test: model of Python `pat in s`. -/
def isSubChars (pat : List Char) : List Char → Bool
  | [] => pat.isEmpty
  | b :: bs => isPrefixChars pat (b :: bs) || isSubChars pat bs

/-- Model of Python `".js" in skill`. -/
def containsDotJs (s : String) : Bool := isSubChars ['.', 'j', 's'] s.data

/-- Model of Python `skill.replace(".js", "")` (left-to-right,
non-overlapping). -/
def removeDotJs : List Char → List Char
  | [] => []
  | '.' :: 'j' :: 's' :: rest => removeDotJs rest
  | c :: rest => c :: removeDotJs rest

/-- Model of Python `skill.endswith(".js")`. -/
def endsWithDotJs (s : String) : Bool :=
  isPrefixChars ['s', 'j', '.'] s.data.reverse

def strJs : String := "js"

def strDotJs : String := ".js"

def strDotPrefix : String := "dot"

/-- `_build_variation_map`: for each canonical skill seed the singleton
set; if the skill contains ".js" add the ".js"-stripped base and that base
plus "js"; if it contains "." add the dot-stripped form and, when it
starts with ".", "dot" plus the rest; if it contains "-" add the
hyphen-stripped form.  Variation sets are used through membership only, so
duplicates in the list representation are harmless. -/
def build_variation_map (skills : List String) : List (String × List String) :=
  skills.map fun skill =>
    let canonical := strLower skill
    let v1 := [canonical]
    let v2 :=
      if containsDotJs skill then
        let base : String := ⟨removeDotJs skill.data⟩
        v1 ++ [base, base ++ strJs]
      else v1
    let v3 :=
      if skill.data.contains '.' then
        (v2 ++ [⟨skill.data.filter fun c => decide (c ≠ '.')⟩]) ++
          (match skill.data with
            | '.' :: rest => [strDotPrefix ++ ⟨rest⟩]
            | _ => [])
      else v2
    let v4 :=
      if skill.data.contains '-' then
        v3 ++ [⟨skill.data.filter fun c => decide (c ≠ '-')⟩]
      else v3
    (canonical, v4)

/-- `_get_curated_tech_skills`: the hand-curated skill set. -/
def get_curated_tech_skills : List String :=
  [r"react", r"vue.js", r"angular", r"svelte", r"next.js", r"django",
   r"flask", r"fastapi", r"spring", r"express", r"nest.js", r".net",
   r"asp.net", r"laravel", r"rails",
   r"postgresql", r"mysql", r"mongodb", r"redis", r"elasticsearch",
   r"cassandra", r"dynamodb", r"sql", r"nosql",
   r"aws", r"azure", r"gcp", r"google cloud", r"heroku", r"vercel",
   r"docker", r"kubernetes", r"k8s", r"terraform", r"ansible", r"jenkins",
   r"github actions", r"gitlab ci", r"ci/cd",
   r"agile", r"scrum", r"devops", r"tdd", r"rest", r"graphql",
   r"microservices", r"api"]

/-- `_add_variations`: skills ending in ".js" also register their base;
"react", "vue", "next", "nest" also register a ".js"-suffixed form. -/
def add_variations (skills : List String) : List String :=
  skills.filterMap fun skill =>
    if endsWithDotJs skill then some ⟨skill.data.take (skill.data.length - 3)⟩
    else if [r"react", r"vue", r"next", r"nest"].contains skill then
      some (skill ++ strDotJs)
    else none

/-- The taxonomy built by `_load_or_build_skills` when the network source
contributes nothing (curated skills, plus derived variations, post-filtered)
— the fully static build path of the program. -/
def curatedTaxonomy : List String :=
  filterSingle (get_curated_tech_skills ++ add_variations get_curated_tech_skills)

/-- The extractor over the static curated taxonomy. -/
def curatedExtractor : NLPSkillExtractor :=
  ⟨curatedTaxonomy, build_variation_map curatedTaxonomy⟩

/-- Ordered-dict insertion with overwrite:
`{s.lower(): s for s in skills}` processes `skills` left to right, the
last value for a key winning, keys in first-insertion order. -/
def insertMap : List (String × String) → String → String → List (String × String)
  | [], k, v => [(k, v)]
  | p :: m, k, v => if p.1 == k then (p.1, v) :: m else p :: insertMap m k v

/-- The lowercase-key → display-string map a matcher side builds from its
extracted skill list. -/
def toLowerMap (skills : List String) : List (String × String) :=
  skills.foldl (fun m s => insertMap m (strLower s) s) []

/-- Dict lookup `m[k]`; total with a junk default, used only at keys known
to be present. -/
def mapFind (m : List (String × String)) (k : String) : String :=
  match m.find? (fun p => p.1 == k) with
  | some p => p.2
  | none => ""

/-- Round to the nearest integer, ties to even: the rounding mode of
Python `round`. -/
def roundHalfEven (q : ℚ) : ℤ :=
  let f := ⌊q⌋
  let r := q - (f : ℚ)
  if r < 1 / 2 then f
  else if 1 / 2 < r then f + 1
  else if f % 2 = 0 then f else f + 1

/-- Model of Python `round(x, 2)` over exact rationals. -/
def pyRound2 (q : ℚ) : ℚ := ((roundHalfEven (q * 100) : ℤ) : ℚ) / 100

/-- The match report returned by `ResumeJobMatcher.match_skills`. -/
structure MatchResult where
  matched_keywords : List String
  missing_keywords : List String
  score : ℚ
  match_ratio : String
  explanation : String

def msgNoSkills : String := "No skills found in job description"

def strSlash : String := "/"

def strRatio00 : String := "0/0"

/-- `_empty_result`: the zero-valued report for degenerate inputs. -/
def empty_result (message : String) : MatchResult :=
  ⟨[], [], 0, strRatio00, message⟩

/-- Decimal digit characters for the naturals rendered into the ratio
string. -/
def digitChar : Nat → Char
  | 0 => '0'
  | 1 => '1'
  | 2 => '2'
  | 3 => '3'
  | 4 => '4'
  | 5 => '5'
  | 6 => '6'
  | 7 => '7'
  | 8 => '8'
  | 9 => '9'
  | _ => '*'

/-- Fuel-driven digit expansion (structural, so it reduces in the kernel). -/
def natReprAux : Nat → Nat → List Char
  | 0, _ => []
  | fuel + 1, n =>
    if n < 10 then [digitChar n]
    else natReprAux fuel (n / 10) ++ [digitChar (n % 10)]

/-- Model of Python `str` on a natural number (decimal). -/
def natRepr (n : Nat) : String := ⟨natReprAux (n + 1) n⟩

/-- Model of the Python float formatting of the score inside the
explanation text: the exact rational is rendered as numerator or
numerator/denominator.  No claim depends on this rendering. -/
def scoreRepr (q : ℚ) : String :=
  if q.den = 1 then ⟨natReprAux (q.num.natAbs + 1) q.num.natAbs⟩
  else ⟨natReprAux (q.num.natAbs + 1) q.num.natAbs⟩ ++ strSlash ++ natRepr q.den

def verdictStrong : String := "✓ Strong match ("

def verdictGood : String := "~ Good match ("

def verdictPartial2 : String := "△ "

def verdictPartial : String := "Partial match ("

def verdictWeak : String := "✗ Weak match ("

def strPercentClose : String := "%)"

def hdrMatched : String := "\nMatched skills ("

def hdrMissing : String := "\nMissing skills ("

def hdrClose : String := "):"

def strIndent : String := "  "

def strCommaSep : String := ", "

def strNewline : String := "\n"

/-- Python `sep.join(parts)`. -/
def joinSep (sep : String) : List String → String
  | [] => ""
  | [s] => s
  | s :: t :: rest => s ++ sep ++ joinSep sep (t :: rest)

/-- `_explain`: verdict line from the (unrounded) score, then the matched
and missing lists when non-empty. -/
def explain (matched missing : List String) (score : ℚ) : String :=
  let verdict :=
    if 80 ≤ score then verdictStrong ++ scoreRepr score ++ strPercentClose
    else if 60 ≤ score then verdictGood ++ scoreRepr score ++ strPercentClose
    else if 40 ≤ score then
      verdictPartial2 ++ verdictPartial ++ scoreRepr score ++ strPercentClose
    else verdictWeak ++ scoreRepr score ++ strPercentClose
  let lines :=
    [verdict] ++
      (if matched.isEmpty then [] else
        [hdrMatched ++ natRepr matched.length ++ hdrClose,
         strIndent ++ joinSep strCommaSep matched]) ++
      (if missing.isEmpty then [] else
        [hdrMissing ++ natRepr missing.length ++ hdrClose,
         strIndent ++ joinSep strCommaSep missing])
  joinSep strNewline lines

/-- The locals of `ResumeJobMatcher.match_skills`, hoisted into named
definitions.  `job_map`/`resume_map` are the lowercase-key → display-string
dicts; `job_keys`/`resume_keys` their key lists (no duplicate keys,
first-insertion order), which represent the Python key sets; the set
intersection and difference are the two filters of the duplicate-free job
key list. -/
def jobMap (E : NLPSkillExtractor) (jd : List Tok) : List (String × String) :=
  toLowerMap (extract_best_format E jd)

/-- The requirement-side lowercase key set of `match_skills`. -/
def jobKeys (E : NLPSkillExtractor) (jd : List Tok) : List String :=
  (jobMap E jd).map Prod.fst

/-- The candidate-side lowercase key set of `match_skills`. -/
def resumeKeys (E : NLPSkillExtractor) (rd : List Tok) : List String :=
  (toLowerMap (extract_best_format E rd)).map Prod.fst

/-- `matched_keys = job_keys ∩ resume_keys`. -/
def matchedKeys (E : NLPSkillExtractor) (rd jd : List Tok) : List String :=
  (jobKeys E jd).filter fun k => (resumeKeys E rd).contains k

/-- `missing_keys = job_keys - resume_keys`. -/
def missingKeys (E : NLPSkillExtractor) (rd jd : List Tok) : List String :=
  (jobKeys E jd).filter fun k => !(resumeKeys E rd).contains k

/-- `matched_display = [job_map[k] for k in sorted(matched_keys)]`. -/
def matchedDisplay (E : NLPSkillExtractor) (rd jd : List Tok) : List String :=
  (List.insertionSort StrLe (matchedKeys E rd jd)).map fun k => mapFind (jobMap E jd) k

/-- `missing_display = [job_map[k] for k in sorted(missing_keys)]`. -/
def missingDisplay (E : NLPSkillExtractor) (rd jd : List Tok) : List String :=
  (List.insertionSort StrLe (missingKeys E rd jd)).map fun k => mapFind (jobMap E jd) k

/-- `score = (len(matched_keys) / len(job_keys)) * 100`, before rounding. -/
def matchScore (E : NLPSkillExtractor) (rd jd : List Tok) : ℚ :=
  ((matchedKeys E rd jd).length : ℚ) / ((jobKeys E jd).length : ℚ) * 100

/-- `ResumeJobMatcher.match_skills`: extract both sides, build the
lowercase maps, take the key intersection and difference, branch on an
empty requirement key set, and otherwise assemble the report in the job
side's spelling, with the rounded score and the ratio string. -/
def match_skills (E : NLPSkillExtractor) (resume_doc job_doc : List Tok) : MatchResult :=
  if (jobKeys E job_doc).isEmpty then empty_result msgNoSkills
  else
    ⟨matchedDisplay E resume_doc job_doc, missingDisplay E resume_doc job_doc,
      pyRound2 (matchScore E resume_doc job_doc),
      natRepr (matchedKeys E resume_doc job_doc).length ++ strSlash
        ++ natRepr (jobKeys E job_doc).length,
      explain (matchedDisplay E resume_doc job_doc) (missingDisplay E resume_doc job_doc)
        (matchScore E resume_doc job_doc)⟩

/-- The observation list stored for key `k` (first matching entry, empty
when absent). -/
def obsIn (m : List (String × List String)) (k : String) : List String :=
  match m.find? (fun p => p.1 == k) with
  | some p => p.2
  | none => []

/-- The surface text of the first recorded event for key `k`. -/
def firstSurf (es : List SkillEvent) (k : String) : String :=
  match es.find? (fun e => e.2.1 == k) with
  | some e => e.2.2
  | none => ""

/- Concrete data used by witnesses and counterexamples. -/

def strC : String := "c"

def strRUpper : String := "R"

def strVue : String := "vue"

def strVueJs : String := "vue.js"

def strpy : String := "python"

def strPy : String := "Python"

def strPYUP : String := "PYTHON"

def strDocker : String := "docker"

def strDockerCap : String := "Docker"

/-- The taxonomy the single-letter test builds: raw entries "c" and "r"
run through the rebuild post-filter, variations built on the result. -/
def extractorCR : NLPSkillExtractor :=
  ⟨filterSingle [strC, strR], build_variation_map (filterSingle [strC, strR])⟩

/-- Tokenization of "I know C and R". -/
def docCR : List Tok :=
  [⟨r"I", r" "⟩, ⟨r"know", r" "⟩, ⟨r"C", r" "⟩, ⟨r"and", r" "⟩, ⟨r"R", r""⟩]

/-- One-token document "vue". -/
def docVue : List Tok := [⟨strVue, r""⟩]

/-- Taxonomy containing only "python" (with its variation map), the
smallest configuration exhibiting the duplicated-recording divergence. -/
def pyExtractor : NLPSkillExtractor := ⟨[strpy], build_variation_map [strpy]⟩

/-- Two-token document "python Python". -/
def docPyPair : List Tok := [⟨strpy, r" "⟩, ⟨strPy, r""⟩]

/-- One-token document "python". -/
def docPySingle : List Tok := [⟨strpy, r""⟩]

/-- One-token document "Python". -/
def docPyCap : List Tok := [⟨strPy, r""⟩]

/-- Taxonomy containing "python" and "docker". -/
def pdExtractor : NLPSkillExtractor :=
  ⟨[strpy, strDocker], build_variation_map [strpy, strDocker]⟩

/-- Job document "Python Docker". -/
def docJobPD : List Tok := [⟨strPy, r" "⟩, ⟨strDockerCap, r""⟩]

/-! Lexicographic order facts for `charLe`/`StrLe`. -/

theorem charLe_total : ∀ (a b : List Char), charLe a b = true ∨ charLe b a = true := by
  intro a
  induction a with
  | nil => intro b; left; rfl
  | cons x xs ih =>
    intro b
    cases b with
    | nil => right; rfl
    | cons y ys =>
      by_cases hxy : x = y
      · subst hxy
        rcases ih ys with h | h
        · left; simpa [charLe] using h
        · right; simpa [charLe] using h
      · rcases lt_or_gt_of_ne hxy with h | h
        · left; simp [charLe, hxy, h]
        · right; simp [charLe, Ne.symm hxy, h]

theorem charLe_trans :
    ∀ (a b c : List Char), charLe a b = true → charLe b c = true → charLe a c = true := by
  intro a
  induction a with
  | nil => intro b c _ _; rfl
  | cons x xs ih =>
    intro b c hab hbc
    cases b with
    | nil => simp [charLe] at hab
    | cons y ys =>
      cases c with
      | nil => simp [charLe] at hbc
      | cons z zs =>
        by_cases hxy : x = y <;> by_cases hyz : y = z
        · subst hxy; subst hyz
          simp only [charLe, if_pos rfl] at hab hbc ⊢
          exact ih ys zs hab hbc
        · subst hxy
          simp only [charLe, if_pos rfl, if_neg hyz] at hbc ⊢
          exact hbc
        · subst hyz
          simp only [charLe, if_neg hxy] at hab ⊢
          exact hab
        · simp only [charLe, if_neg hxy, if_neg hyz, decide_eq_true_eq] at hab hbc
          have hxz : x < z := lt_trans hab hbc
          simp [charLe, ne_of_lt hxz, hxz]

theorem charLe_antisymm :
    ∀ (a b : List Char), charLe a b = true → charLe b a = true → a = b := by
  intro a
  induction a with
  | nil =>
    intro b _ hba
    cases b with
    | nil => rfl
    | cons y ys => simp [charLe] at hba
  | cons x xs ih =>
    intro b hab hba
    cases b with
    | nil => simp [charLe] at hab
    | cons y ys =>
      by_cases hxy : x = y
      · subst hxy
        simp only [charLe, if_pos rfl] at hab hba
        exact congrArg (x :: ·) (ih ys hab hba)
      · simp only [charLe, if_neg hxy, if_neg (Ne.symm hxy), decide_eq_true_eq] at hab hba
        exact absurd hba (lt_asymm hab)

instance : IsTotal String StrLe := ⟨fun a b => charLe_total a.data b.data⟩

instance : IsTrans String StrLe := ⟨fun a b c => charLe_trans a.data b.data c.data⟩

theorem string_data_inj : ∀ {a b : String}, a.data = b.data → a = b := by
  intro a b h
  cases a
  cases b
  exact congrArg String.mk h

instance : IsAntisymm String StrLe :=
  ⟨fun a b h1 h2 => string_data_inj (charLe_antisymm a.data b.data h1 h2)⟩

theorem sortStr_sorted (l : List String) :
    List.Sorted StrLe (List.insertionSort StrLe l) :=
  List.sorted_insertionSort StrLe l

theorem sortStr_perm (l : List String) :
    (List.insertionSort StrLe l).Perm l :=
  List.perm_insertionSort StrLe l

theorem sortStr_eq_of_perm {l₁ l₂ : List String} (h : l₁.Perm l₂) :
    List.insertionSort StrLe l₁ = List.insertionSort StrLe l₂ :=
  List.eq_of_perm_of_sorted
    ((sortStr_perm l₁).trans (h.trans (sortStr_perm l₂).symm))
    (sortStr_sorted l₁) (sortStr_sorted l₂)

theorem sortStr_length (l : List String) :
    (List.insertionSort StrLe l).length = l.length :=
  (sortStr_perm l).length_eq

theorem sortStr_mem {a : String} {l : List String} :
    a ∈ List.insertionSort StrLe l ↔ a ∈ l :=
  (sortStr_perm l).mem_iff

theorem sortStr_eq_nil {l : List String} :
    List.insertionSort StrLe l = [] ↔ l = [] := by
  constructor
  · intro h
    have := sortStr_perm l
    rw [h] at this
    exact this.symm.eq_nil
  · intro h; subst h; rfl

/-! Facts about the `found_skills` accumulation. -/

theorem obsIn_cons_pos {p : String × List String} {m : List (String × List String)}
    {k : String} (h : (p.1 == k) = true) : obsIn (p :: m) k = p.2 := by
  unfold obsIn
  rw [@List.find?_cons_of_pos (String × List String) (fun q => q.1 == k) p m h]

theorem obsIn_cons_neg {p : String × List String} {m : List (String × List String)}
    {k : String} (h : (p.1 == k) = false) : obsIn (p :: m) k = obsIn m k := by
  unfold obsIn
  rw [List.find?_cons_of_neg _ (by simp [h])]

theorem obsIn_addObs (m : List (String × List String)) (k s k' : String) :
    obsIn (addObs m k s) k' = if k' = k then obsIn m k' ++ [s] else obsIn m k' := by
  induction m with
  | nil =>
    by_cases h : k' = k
    · rw [if_pos h]
      show obsIn [(k, [s])] k' = obsIn [] k' ++ [s]
      rw [obsIn_cons_pos (beq_iff_eq.mpr h.symm)]
      rfl
    · rw [if_neg h]
      show obsIn [(k, [s])] k' = obsIn [] k'
      exact obsIn_cons_neg (beq_eq_false_iff_ne.mpr (Ne.symm h))
  | cons p m ih =>
    rcases p with ⟨pk, pv⟩
    by_cases hpk : pk = k
    · have hstep : addObs ((pk, pv) :: m) k s = (pk, pv ++ [s]) :: m := by
        simp [addObs, beq_iff_eq.mpr hpk]
      by_cases h : k' = k
      · have hb : (pk == k') = true := beq_iff_eq.mpr (hpk.trans h.symm)
        rw [hstep, if_pos h, obsIn_cons_pos hb, obsIn_cons_pos hb]
      · have hb : (pk == k') = false :=
          beq_eq_false_iff_ne.mpr fun hc => h (hc.symm.trans hpk)
        rw [hstep, if_neg h, obsIn_cons_neg hb, obsIn_cons_neg hb]
    · have hstep : addObs ((pk, pv) :: m) k s = (pk, pv) :: addObs m k s := by
        simp [addObs, beq_eq_false_iff_ne.mpr hpk]
      rw [hstep]
      by_cases hk2 : pk = k'
      · have hkk : ¬ (k' = k) := fun hc => hpk (hk2.trans hc)
        rw [if_neg hkk, obsIn_cons_pos (beq_iff_eq.mpr hk2),
          obsIn_cons_pos (beq_iff_eq.mpr hk2)]
      · rw [obsIn_cons_neg (beq_eq_false_iff_ne.mpr hk2), ih,
          obsIn_cons_neg (beq_eq_false_iff_ne.mpr hk2)]

theorem obsIn_foldl (es : List SkillEvent) :
    ∀ (m : List (String × List String)) (k : String),
      obsIn (es.foldl (fun m e => addObs m e.2.1 e.2.2) m) k
        = obsIn m k ++ (es.filter fun e => e.2.1 == k).map fun e => e.2.2 := by
  induction es with
  | nil => intro m k; simp
  | cons e es ih =>
    intro m k
    rw [List.foldl_cons, ih, obsIn_addObs]
    by_cases h : k = e.2.1
    · rw [if_pos h]
      have hf : ((e :: es).filter fun e => e.2.1 == k)
          = e :: es.filter fun e => e.2.1 == k := by
        simp [List.filter_cons, beq_iff_eq.mpr h.symm]
      rw [hf]
      simp
    · rw [if_neg h]
      have hf : ((e :: es).filter fun e => e.2.1 == k)
          = es.filter fun e => e.2.1 == k := by
        simp [List.filter_cons, beq_eq_false_iff_ne.mpr fun hc => h hc.symm]
      rw [hf]

theorem obsIn_accumulate (es : List SkillEvent) (k : String) :
    obsIn (accumulate es) k = (es.filter fun e => e.2.1 == k).map fun e => e.2.2 := by
  have := obsIn_foldl es [] k
  simpa [accumulate, obsIn] using this

theorem keys_addObs (m : List (String × List String)) (k s : String) :
    (addObs m k s).map Prod.fst
      = if k ∈ m.map Prod.fst then m.map Prod.fst else m.map Prod.fst ++ [k] := by
  induction m with
  | nil => simp [addObs]
  | cons p m ih =>
    by_cases hpk : p.1 = k
    · have hstep : addObs (p :: m) k s = (p.1, p.2 ++ [s]) :: m := by
        cases p; simp_all [addObs]
      rw [hstep]
      have hin : k ∈ (p :: m).map Prod.fst := by simp [hpk.symm]
      rw [if_pos hin]
      simp
    · have hstep : addObs (p :: m) k s = p :: addObs m k s := by
        cases p; simp_all [addObs]
      rw [hstep]
      by_cases hm : k ∈ m.map Prod.fst
      · have hin : k ∈ (p :: m).map Prod.fst := by simp [hm]
        rw [if_pos hin]
        simp [ih, hm]
      · have hne : ¬ k = p.1 := fun hc => hpk hc.symm
        have hnin : k ∉ (p :: m).map Prod.fst := by simp [hm, hne]
        rw [if_neg hnin]
        simp [ih, hm]

theorem mem_keys_addObs {k' : String} (m : List (String × List String)) (k s : String) :
    k' ∈ (addObs m k s).map Prod.fst ↔ k' ∈ m.map Prod.fst ∨ k' = k := by
  rw [keys_addObs]
  by_cases h : k ∈ m.map Prod.fst
  · rw [if_pos h]
    constructor
    · exact Or.inl
    · rintro (hk | rfl)
      · exact hk
      · exact h
  · rw [if_neg h]
    simp [List.mem_append]

theorem nodup_keys_addObs {m : List (String × List String)} (k s : String)
    (h : (m.map Prod.fst).Nodup) : ((addObs m k s).map Prod.fst).Nodup := by
  rw [keys_addObs]
  by_cases hm : k ∈ m.map Prod.fst
  · rwa [if_pos hm]
  · rw [if_neg hm]
    simp [List.nodup_append, h, hm]

theorem keys_foldl_mem (es : List SkillEvent) :
    ∀ (m : List (String × List String)) (k : String),
      k ∈ ((es.foldl (fun m e => addObs m e.2.1 e.2.2) m).map Prod.fst)
        ↔ k ∈ m.map Prod.fst ∨ k ∈ es.map fun e => e.2.1 := by
  induction es with
  | nil => intro m k; simp
  | cons e es ih =>
    intro m k
    rw [List.foldl_cons, ih, mem_keys_addObs]
    simp [or_assoc, or_comm, or_left_comm]

theorem mem_keys_accumulate {es : List SkillEvent} {k : String} :
    k ∈ (accumulate es).map Prod.fst ↔ k ∈ es.map fun e => e.2.1 := by
  have := keys_foldl_mem es [] k
  simpa [accumulate] using this

theorem nodup_keys_foldl (es : List SkillEvent) :
    ∀ (m : List (String × List String)), (m.map Prod.fst).Nodup →
      (((es.foldl (fun m e => addObs m e.2.1 e.2.2) m)).map Prod.fst).Nodup := by
  induction es with
  | nil => intro m h; exact h
  | cons e es ih =>
    intro m h
    rw [List.foldl_cons]
    exact ih _ (nodup_keys_addObs _ _ h)

theorem nodup_keys_accumulate (es : List SkillEvent) :
    ((accumulate es).map Prod.fst).Nodup :=
  nodup_keys_foldl es [] (by simp)

theorem find?_entry {α : Type} {m : List (String × α)}
    (h : (m.map Prod.fst).Nodup) {p : String × α} (hp : p ∈ m) :
    m.find? (fun q => q.1 == p.1) = some p := by
  induction m with
  | nil => cases hp
  | cons q m ih =>
    rcases List.mem_cons.mp hp with rfl | hp2
    · exact List.find?_cons_of_pos _ (by simp)
    · have hq : q.1 ≠ p.1 := by
        intro hc
        have : q.1 ∈ m.map Prod.fst := hc ▸ List.mem_map.mpr ⟨p, hp2, rfl⟩
        exact (List.nodup_cons.mp h).1 this
      rw [List.find?_cons_of_neg _ (by simp [hq])]
      exact ih (List.nodup_cons.mp h).2 hp2

theorem mem_accumulate_obs {es : List SkillEvent} {p : String × List String}
    (hp : p ∈ accumulate es) :
    p.2 = (es.filter fun e => e.2.1 == p.1).map fun e => e.2.2 := by
  have h1 := find?_entry (nodup_keys_accumulate es) hp
  have h2 : obsIn (accumulate es) p.1 = p.2 := by
    unfold obsIn
    rw [h1]
  rw [← h2, obsIn_accumulate]

theorem mem_accumulate_key {es : List SkillEvent} {p : String × List String}
    (hp : p ∈ accumulate es) : p.1 ∈ es.map fun e => e.2.1 :=
  mem_keys_accumulate.mp (List.mem_map.mpr ⟨p, hp, rfl⟩)

theorem mem_accumulate_obs_ne_nil {es : List SkillEvent} {p : String × List String}
    (hp : p ∈ accumulate es) : p.2 ≠ [] := by
  rw [mem_accumulate_obs hp]
  intro hc
  rcases List.mem_map.mp (mem_accumulate_key hp) with ⟨e, he, hek⟩
  have hmem : e ∈ es.filter fun e => e.2.1 == p.1 :=
    List.mem_filter.mpr ⟨he, beq_iff_eq.mpr hek⟩
  rw [List.map_eq_nil_iff] at hc
  rw [hc] at hmem
  cases hmem

/-! Facts about the format selector. -/

theorem argmaxList_spec (q : String → Nat) :
    ∀ (xs : List String) (x : String),
      ∃ l₁ l₂, x :: xs = l₁ ++ argmaxList q x xs :: l₂
        ∧ (∀ s ∈ x :: xs, q s ≤ q (argmaxList q x xs))
        ∧ ∀ t ∈ l₁, q t < q (argmaxList q x xs) := by
  intro xs
  induction xs with
  | nil =>
    intro x
    refine ⟨[], [], rfl, ?_, by simp⟩
    intro s hs
    rw [List.mem_singleton.mp hs]
    exact le_refl _
  | cons y ys ih =>
    intro x
    by_cases hxy : q x < q y
    · have heq : argmaxList q x (y :: ys) = argmaxList q y ys := by
        simp [argmaxList, hxy]
      obtain ⟨l₁, l₂, hsplit, hmax, hstrict⟩ := ih y
      refine ⟨x :: l₁, l₂, ?_, ?_, ?_⟩
      · rw [heq, List.cons_append, ← hsplit]
      · intro s hs
        rw [heq]
        rcases List.mem_cons.mp hs with rfl | hs2
        · exact le_of_lt (lt_of_lt_of_le hxy (hmax y (List.mem_cons_self _ _)))
        · exact hmax s hs2
      · intro t ht
        rw [heq]
        rcases List.mem_cons.mp ht with rfl | ht2
        · exact lt_of_lt_of_le hxy (hmax y (List.mem_cons_self _ _))
        · exact hstrict t ht2
    · have heq : argmaxList q x (y :: ys) = argmaxList q x ys := by
        simp [argmaxList, hxy]
      obtain ⟨l₁, l₂, hsplit, hmax, hstrict⟩ := ih x
      cases l₁ with
      | nil =>
        have hm : x = argmaxList q x ys := by
          simpa using congrArg (fun l => l.head?) hsplit
        have hl₂ : ys = l₂ := by
          simpa using congrArg (fun l => l.tail) hsplit
        refine ⟨[], y :: ys, ?_, ?_, by simp⟩
        · simp only [List.nil_append, heq, ← hm]
        · intro s hs
          rw [heq, ← hm]
          rcases List.mem_cons.mp hs with rfl | hs2
          · exact le_refl _
          · rcases List.mem_cons.mp hs2 with rfl | hs3
            · exact le_of_not_lt hxy
            · have := hmax s (List.mem_cons_of_mem _ (hl₂ ▸ hs3))
              rwa [← hm] at this
      | cons a l₁ =>
        have ha : x = a := by
          simpa using congrArg (fun l => l.head?) hsplit
        have hys : ys = l₁ ++ argmaxList q x ys :: l₂ := by
          simpa using congrArg (fun l => l.tail) hsplit
        refine ⟨x :: y :: l₁, l₂, ?_, ?_, ?_⟩
        · rw [heq]
          simp only [List.cons_append]
          rw [← hys]
        · intro s hs
          rw [heq]
          rcases List.mem_cons.mp hs with rfl | hs2
          · exact hmax s (List.mem_cons_self _ _)
          · rcases List.mem_cons.mp hs2 with rfl | hs3
            · exact le_trans (le_of_not_lt hxy) (hmax x (List.mem_cons_self _ _))
            · exact hmax s (List.mem_cons_of_mem _ (hys ▸ hs3))
        · intro t ht
          rw [heq]
          have hxmem : x ∈ a :: l₁ := by
            rw [ha]
            exact List.mem_cons_self a l₁
          have hx_lt : q x < q (argmaxList q x ys) := hstrict x hxmem
          rcases List.mem_cons.mp ht with rfl | ht2
          · exact hx_lt
          · rcases List.mem_cons.mp ht2 with rfl | ht3
            · exact lt_of_le_of_lt (le_of_not_lt hxy) hx_lt
            · exact hstrict t (List.mem_cons_of_mem _ ht3)

theorem argmaxList_mem (q : String → Nat) (x : String) (xs : List String) :
    argmaxList q x xs ∈ x :: xs := by
  obtain ⟨l₁, l₂, hsplit, _, _⟩ := argmaxList_spec q xs x
  rw [hsplit]
  exact List.mem_append_right _ (List.mem_cons_self _ _)

theorem argmaxList_le (q : String → Nat) (x : String) (xs : List String) :
    ∀ s ∈ x :: xs, q s ≤ q (argmaxList q x xs) := by
  obtain ⟨_, _, _, hmax, _⟩ := argmaxList_spec q xs x
  exact hmax

theorem pick_best_format_mem :
    ∀ {formats : List String} {m : String},
      pick_best_format formats = some m → m ∈ formats := by
  intro formats m h
  match formats, h with
  | [f], h =>
    rw [List.mem_singleton]
    exact (Option.some_inj.mp h).symm
  | f :: g :: rest, h =>
    rw [pick_best_format] at h
    by_cases hc :
        1 < (f :: g :: rest).count
          (argmaxList (fun s => (f :: g :: rest).count s) f (g :: rest))
    · rw [if_pos hc] at h
      rw [← Option.some_inj.mp h]
      exact argmaxList_mem _ f (g :: rest)
    · rw [if_neg hc] at h
      rw [← Option.some_inj.mp h]
      exact argmaxList_mem _ f (g :: rest)

theorem pick_best_format_isSome {formats : List String} (h : formats ≠ []) :
    ∃ m, pick_best_format formats = some m := by
  match formats with
  | [f] => exact ⟨f, rfl⟩
  | f :: g :: rest =>
    rw [pick_best_format]
    by_cases hc :
        1 < (f :: g :: rest).count
          (argmaxList (fun s => (f :: g :: rest).count s) f (g :: rest))
    · rw [if_pos hc]
      exact ⟨_, rfl⟩
    · rw [if_neg hc]
      exact ⟨_, rfl⟩

theorem pick_best_format_const {formats : List String} {a : String}
    (hne : formats ≠ []) (hall : ∀ x ∈ formats, x = a) :
    pick_best_format formats = some a := by
  match formats with
  | [f] =>
    rw [hall f (List.mem_singleton_self f)]
    rfl
  | f :: g :: rest =>
    have hcount : (f :: g :: rest).count a = (f :: g :: rest).length :=
      List.count_eq_length.mpr fun b hb => (hall b hb).symm
    have hmem := argmaxList_mem (fun s => (f :: g :: rest).count s) f (g :: rest)
    have hma : argmaxList (fun s => (f :: g :: rest).count s) f (g :: rest) = a :=
      hall _ hmem
    rw [pick_best_format, hma]
    have h2 : 1 < (f :: g :: rest).count a := by
      rw [hcount]
      simp [List.length_cons]
    rw [if_pos h2]

/-- When a function is `some` of `g` on every element, `filterMap` is `map`. -/
theorem filterMap_eq_map_of {α β : Type} {l : List α} {f : α → Option β} {g : α → β}
    (h : ∀ x ∈ l, f x = some (g x)) : l.filterMap f = l.map g := by
  induction l with
  | nil => rfl
  | cons a l ih =>
    rw [List.filterMap_cons, h a (List.mem_cons_self _ _), List.map_cons,
      ih fun x hx => h x (List.mem_cons_of_mem _ hx)]

theorem filterMap_length_of_isSome {α β : Type} {l : List α} {f : α → Option β}
    (h : ∀ x ∈ l, (f x).isSome) : (l.filterMap f).length = l.length := by
  induction l with
  | nil => rfl
  | cons a l ih =>
    rcases Option.isSome_iff_exists.mp (h a (List.mem_cons_self _ _)) with ⟨b, hb⟩
    rw [List.filterMap_cons, hb, List.length_cons,
      ih fun x hx => h x (List.mem_cons_of_mem _ hx), List.length_cons]

/-! Facts about the lowercase display maps of the matcher. -/

theorem keys_insertMap (m : List (String × String)) (k v : String) :
    (insertMap m k v).map Prod.fst
      = if k ∈ m.map Prod.fst then m.map Prod.fst else m.map Prod.fst ++ [k] := by
  induction m with
  | nil => simp [insertMap]
  | cons p m ih =>
    by_cases hpk : p.1 = k
    · have hstep : insertMap (p :: m) k v = (p.1, v) :: m := by
        cases p; simp_all [insertMap]
      rw [hstep]
      have hin : k ∈ (p :: m).map Prod.fst := by simp [hpk.symm]
      rw [if_pos hin]
      simp
    · have hstep : insertMap (p :: m) k v = p :: insertMap m k v := by
        cases p; simp_all [insertMap]
      rw [hstep]
      by_cases hm : k ∈ m.map Prod.fst
      · have hin : k ∈ (p :: m).map Prod.fst := by simp [hm]
        rw [if_pos hin]
        simp [ih, hm]
      · have hne : ¬ k = p.1 := fun hc => hpk hc.symm
        have hnin : k ∉ (p :: m).map Prod.fst := by simp [hm, hne]
        rw [if_neg hnin]
        simp [ih, hm]

theorem mem_keys_insertMap {k' : String} (m : List (String × String)) (k v : String) :
    k' ∈ (insertMap m k v).map Prod.fst ↔ k' ∈ m.map Prod.fst ∨ k' = k := by
  rw [keys_insertMap]
  by_cases h : k ∈ m.map Prod.fst
  · rw [if_pos h]
    constructor
    · exact Or.inl
    · rintro (hk | rfl)
      · exact hk
      · exact h
  · rw [if_neg h]
    simp [List.mem_append]

theorem nodup_keys_insertMap {m : List (String × String)} (k v : String)
    (h : (m.map Prod.fst).Nodup) : ((insertMap m k v).map Prod.fst).Nodup := by
  rw [keys_insertMap]
  by_cases hm : k ∈ m.map Prod.fst
  · rwa [if_pos hm]
  · rw [if_neg hm]
    simp [List.nodup_append, h, hm]

theorem mem_insertMap_entry {m : List (String × String)} {k v : String}
    {p : String × String} (hp : p ∈ insertMap m k v) :
    p ∈ m ∨ (p.1 = k ∧ p.2 = v) := by
  induction m with
  | nil =>
    right
    rcases List.mem_singleton.mp hp with rfl
    exact ⟨rfl, rfl⟩
  | cons q m ih =>
    by_cases hqk : q.1 = k
    · have hstep : insertMap (q :: m) k v = (q.1, v) :: m := by
        cases q; simp_all [insertMap]
      rw [hstep] at hp
      rcases List.mem_cons.mp hp with rfl | hp2
      · exact Or.inr ⟨hqk, rfl⟩
      · exact Or.inl (List.mem_cons_of_mem _ hp2)
    · have hstep : insertMap (q :: m) k v = q :: insertMap m k v := by
        cases q; simp_all [insertMap]
      rw [hstep] at hp
      rcases List.mem_cons.mp hp with rfl | hp2
      · exact Or.inl (List.mem_cons_self _ _)
      · rcases ih hp2 with h | h
        · exact Or.inl (List.mem_cons_of_mem _ h)
        · exact Or.inr h

theorem toLowerMap_entry {l : List String} :
    ∀ p ∈ toLowerMap l, p.2 ∈ l ∧ p.1 = strLower p.2 := by
  have aux : ∀ (l : List String) (m : List (String × String)) (p : String × String),
      p ∈ l.foldl (fun m s => insertMap m (strLower s) s) m →
        p ∈ m ∨ (p.2 ∈ l ∧ p.1 = strLower p.2) := by
    intro l
    induction l with
    | nil => intro m p hp; exact Or.inl hp
    | cons s l ih =>
      intro m p hp
      rw [List.foldl_cons] at hp
      rcases ih _ p hp with h | h
      · rcases mem_insertMap_entry h with h2 | h2
        · exact Or.inl h2
        · refine Or.inr ⟨?_, ?_⟩
          · rw [h2.2]; exact List.mem_cons_self _ _
          · rw [h2.1, h2.2]
      · exact Or.inr ⟨List.mem_cons_of_mem _ h.1, h.2⟩
  intro p hp
  rcases aux l [] p hp with h | h
  · cases h
  · exact h

theorem nodup_keys_toLowerMap (l : List String) :
    ((toLowerMap l).map Prod.fst).Nodup := by
  have aux : ∀ (l : List String) (m : List (String × String)),
      (m.map Prod.fst).Nodup →
        ((l.foldl (fun m s => insertMap m (strLower s) s) m).map Prod.fst).Nodup := by
    intro l
    induction l with
    | nil => intro m h; exact h
    | cons s l ih =>
      intro m h
      rw [List.foldl_cons]
      exact ih _ (nodup_keys_insertMap _ _ h)
  exact aux l [] (by simp)

theorem mem_keys_toLowerMap {l : List String} {k : String} :
    k ∈ (toLowerMap l).map Prod.fst ↔ ∃ s ∈ l, strLower s = k := by
  have aux : ∀ (l : List String) (m : List (String × String)) (k : String),
      k ∈ ((l.foldl (fun m s => insertMap m (strLower s) s) m).map Prod.fst)
        ↔ k ∈ m.map Prod.fst ∨ ∃ s ∈ l, strLower s = k := by
    intro l
    induction l with
    | nil => intro m k; simp
    | cons s l ih =>
      intro m k
      rw [List.foldl_cons, ih, mem_keys_insertMap]
      constructor
      · rintro ((h | rfl) | h)
        · exact Or.inl h
        · exact Or.inr ⟨s, List.mem_cons_self _ _, rfl⟩
        · rcases h with ⟨t, ht, htk⟩
          exact Or.inr ⟨t, List.mem_cons_of_mem _ ht, htk⟩
      · rintro (h | ⟨t, ht, htk⟩)
        · exact Or.inl (Or.inl h)
        · rcases List.mem_cons.mp ht with rfl | ht2
          · exact Or.inl (Or.inr htk.symm)
          · exact Or.inr ⟨t, ht2, htk⟩
  have := aux l [] k
  simpa using this

theorem toLowerMap_keys_nil_iff {l : List String} :
    (toLowerMap l).map Prod.fst = [] ↔ l = [] := by
  constructor
  · intro h
    cases l with
    | nil => rfl
    | cons s l =>
      have : strLower s ∈ (toLowerMap (s :: l)).map Prod.fst :=
        mem_keys_toLowerMap.mpr ⟨s, List.mem_cons_self _ _, rfl⟩
      rw [h] at this
      cases this
  · intro h
    rw [h]
    rfl

theorem length_insertMap_le (m : List (String × String)) (k v : String) :
    (insertMap m k v).length ≤ m.length + 1 := by
  induction m with
  | nil => simp [insertMap]
  | cons p m ih =>
    by_cases hpk : p.1 = k
    · have hstep : insertMap (p :: m) k v = (p.1, v) :: m := by
        cases p; simp_all [insertMap]
      rw [hstep]
      simp [Nat.le_succ_of_le, Nat.le_succ]
    · have hstep : insertMap (p :: m) k v = p :: insertMap m k v := by
        cases p; simp_all [insertMap]
      rw [hstep]
      simpa using ih

theorem length_toLowerMap_le (l : List String) :
    (toLowerMap l).length ≤ l.length := by
  have aux : ∀ (l : List String) (m : List (String × String)),
      (l.foldl (fun m s => insertMap m (strLower s) s) m).length ≤ m.length + l.length := by
    intro l
    induction l with
    | nil => intro m; simp
    | cons s l ih =>
      intro m
      rw [List.foldl_cons]
      calc (l.foldl (fun m s => insertMap m (strLower s) s)
              (insertMap m (strLower s) s)).length
          ≤ (insertMap m (strLower s) s).length + l.length := ih _
        _ ≤ m.length + 1 + l.length := by
            exact Nat.add_le_add_right (length_insertMap_le m _ s) _
        _ = m.length + (s :: l).length := by simp [List.length_cons]; omega
  have := aux l []
  simpa using this

theorem mapFind_spec {m : List (String × String)} {k : String}
    (h : k ∈ m.map Prod.fst) :
    ∃ p ∈ m, p.1 = k ∧ mapFind m k = p.2 := by
  rcases List.mem_map.mp h with ⟨p, hp, hpk⟩
  have hs : (m.find? fun q => q.1 == k).isSome :=
    List.find?_isSome.mpr ⟨p, hp, beq_iff_eq.mpr hpk⟩
  obtain ⟨q, hq⟩ := Option.isSome_iff_exists.mp hs
  have hqp := List.find?_some hq
  simp only [beq_iff_eq] at hqp
  refine ⟨q, List.mem_of_find?_eq_some hq, hqp, ?_⟩
  unfold mapFind
  rw [hq]

theorem mapFind_toLowerMap {l : List String} {k : String}
    (h : k ∈ (toLowerMap l).map Prod.fst) :
    mapFind (toLowerMap l) k ∈ l ∧ strLower (mapFind (toLowerMap l) k) = k := by
  obtain ⟨p, hpm, hpk, hpv⟩ := mapFind_spec h
  obtain ⟨hmem, hkey⟩ := toLowerMap_entry p hpm
  rw [hpv]
  exact ⟨hmem, by rw [← hkey, hpk]⟩

theorem mapFind_of_entry {m : List (String × String)}
    (h : (m.map Prod.fst).Nodup) {p : String × String} (hp : p ∈ m) :
    mapFind m p.1 = p.2 := by
  unfold mapFind
  rw [find?_entry h hp]

/-! Facts about round-half-to-even. -/

theorem roundHalfEven_ge_floor (q : ℚ) : ⌊q⌋ ≤ roundHalfEven q := by
  simp only [roundHalfEven]
  split_ifs <;> omega

theorem roundHalfEven_le_floor_add_one (q : ℚ) : roundHalfEven q ≤ ⌊q⌋ + 1 := by
  simp only [roundHalfEven]
  split_ifs <;> omega

theorem roundHalfEven_le_add_half (q : ℚ) : (roundHalfEven q : ℚ) ≤ q + 1 / 2 := by
  have hfl : (⌊q⌋ : ℚ) ≤ q := Int.floor_le q
  simp only [roundHalfEven]
  split_ifs with h1 h2 h3
  · linarith
  · push_cast
    linarith
  · linarith
  · have hr : q - (⌊q⌋ : ℚ) = 1 / 2 := le_antisymm (not_lt.mp h2) (not_lt.mp h1)
    push_cast
    linarith

theorem roundHalfEven_nonneg {q : ℚ} (h : 0 ≤ q) : 0 ≤ roundHalfEven q := by
  have h1 := roundHalfEven_ge_floor q
  have h2 : 0 ≤ ⌊q⌋ := Int.floor_nonneg.mpr h
  omega

theorem roundHalfEven_le_of_le {q : ℚ} {B : ℤ} (h : q ≤ (B : ℚ)) :
    roundHalfEven q ≤ B := by
  have hBf : ⌊(B : ℚ)⌋ = B := Int.floor_intCast B
  have h1 : ⌊q⌋ ≤ B := by
    rw [← hBf]
    exact Int.floor_le_floor h
  by_cases h2 : ⌊q⌋ = B
  · have hq : q = (B : ℚ) := by
      have hge : (B : ℚ) ≤ q := by
        have := Int.floor_le q
        rw [h2] at this
        exact this
      exact le_antisymm h hge
    rw [hq]
    simp only [roundHalfEven]
    rw [hBf, if_pos (by norm_num)]
  · have h3 : ⌊q⌋ + 1 ≤ B := by omega
    exact le_trans (roundHalfEven_le_floor_add_one q) h3

theorem roundHalfEven_intCast (z : ℤ) : roundHalfEven (z : ℚ) = z := by
  simp only [roundHalfEven]
  rw [Int.floor_intCast, if_pos (by norm_num)]

/-! Generic list helpers. -/

theorem length_filter_add_length_filter_not {α : Type} (l : List α) (p : α → Bool) :
    (l.filter p).length + (l.filter fun x => !p x).length = l.length := by
  induction l with
  | nil => rfl
  | cons a l ih =>
    by_cases h : p a
    · simp [List.filter_cons, h, ← ih]
      omega
    · simp [List.filter_cons, h, ← ih]
      omega

/-! Branch lemmas for `match_skills`. -/

theorem jobKeys_nodup (E : NLPSkillExtractor) (jd : List Tok) :
    (jobKeys E jd).Nodup := nodup_keys_toLowerMap _

theorem match_skills_empty (E : NLPSkillExtractor) (rd jd : List Tok)
    (h : jobKeys E jd = []) :
    match_skills E rd jd = empty_result msgNoSkills := by
  unfold match_skills
  rw [if_pos (by simp [h])]

theorem match_skills_nonempty (E : NLPSkillExtractor) (rd jd : List Tok)
    (h : jobKeys E jd ≠ []) :
    match_skills E rd jd
      = ⟨matchedDisplay E rd jd, missingDisplay E rd jd,
          pyRound2 (matchScore E rd jd),
          natRepr (matchedKeys E rd jd).length ++ strSlash
            ++ natRepr (jobKeys E jd).length,
          explain (matchedDisplay E rd jd) (missingDisplay E rd jd)
            (matchScore E rd jd)⟩ := by
  unfold match_skills
  rw [if_neg (by simp [h])]

theorem jobKeys_nil_iff {E : NLPSkillExtractor} {jd : List Tok} :
    jobKeys E jd = [] ↔ extract_best_format E jd = [] := by
  unfold jobKeys jobMap
  exact toLowerMap_keys_nil_iff

theorem matchedDisplay_length (E : NLPSkillExtractor) (rd jd : List Tok) :
    (matchedDisplay E rd jd).length = (matchedKeys E rd jd).length := by
  unfold matchedDisplay
  rw [List.length_map, sortStr_length]

theorem missingDisplay_length (E : NLPSkillExtractor) (rd jd : List Tok) :
    (missingDisplay E rd jd).length = (missingKeys E rd jd).length := by
  unfold missingDisplay
  rw [List.length_map, sortStr_length]

theorem matched_add_missing_length (E : NLPSkillExtractor) (rd jd : List Tok) :
    (matchedKeys E rd jd).length + (missingKeys E rd jd).length
      = (jobKeys E jd).length :=
  length_filter_add_length_filter_not _ _

theorem matchedKeys_sub (E : NLPSkillExtractor) (rd jd : List Tok) :
    ∀ k ∈ matchedKeys E rd jd, k ∈ jobKeys E jd := by
  intro k hk
  exact (List.mem_filter.mp hk).1

theorem missingKeys_sub (E : NLPSkillExtractor) (rd jd : List Tok) :
    ∀ k ∈ missingKeys E rd jd, k ∈ jobKeys E jd := by
  intro k hk
  exact (List.mem_filter.mp hk).1

theorem mem_matchedDisplay {E : NLPSkillExtractor} {rd jd : List Tok} {s : String}
    (hs : s ∈ matchedDisplay E rd jd) :
    ∃ k ∈ matchedKeys E rd jd, s = mapFind (jobMap E jd) k := by
  unfold matchedDisplay at hs
  rcases List.mem_map.mp hs with ⟨k, hk, hks⟩
  exact ⟨k, sortStr_mem.mp hk, hks.symm⟩

theorem mem_missingDisplay {E : NLPSkillExtractor} {rd jd : List Tok} {s : String}
    (hs : s ∈ missingDisplay E rd jd) :
    ∃ k ∈ missingKeys E rd jd, s = mapFind (jobMap E jd) k := by
  unfold missingDisplay at hs
  rcases List.mem_map.mp hs with ⟨k, hk, hks⟩
  exact ⟨k, sortStr_mem.mp hk, hks.symm⟩

theorem mapFind_jobMap_mem {E : NLPSkillExtractor} {jd : List Tok} {k : String}
    (hk : k ∈ jobKeys E jd) :
    mapFind (jobMap E jd) k ∈ extract_best_format E jd
      ∧ strLower (mapFind (jobMap E jd) k) = k :=
  mapFind_toLowerMap hk

/-- Every canonical key found by extraction carries at least one
observation, so the format selector never receives an empty list and the
output has exactly one display string per canonical key. -/
theorem extract_length_eq (E : NLPSkillExtractor) (doc : List Tok) :
    (extract_best_format E doc).length = (found_skills E doc).length := by
  unfold extract_best_format
  rw [sortStr_length]
  apply filterMap_length_of_isSome
  intro p hp
  obtain ⟨m, hm⟩ := pick_best_format_isSome (mem_accumulate_obs_ne_nil hp)
  rw [hm]
  rfl

/-- C2: whenever the requirement text yields no extracted skills (in
particular when it is the empty document), match_skills returns the
explicit empty report: matched=[], missing=[], score=0.0, ratio 0/0 and
the fixed explanation, through the explicit empty-requirement branch. -/
theorem c2_empty_requirement (E : NLPSkillExtractor) (resume job : List Tok)
    (h : extract_best_format E job = []) :
    extract_best_format E ([] : List Tok) = []
    ∧ (match_skills E resume job).matched_keywords = []
    ∧ (match_skills E resume job).missing_keywords = []
    ∧ (match_skills E resume job).score = 0
    ∧ (match_skills E resume job).match_ratio = "0/0"
    ∧ (match_skills E resume job).explanation = "No skills found in job description" := by
  have hj : jobKeys E job = [] := jobKeys_nil_iff.mpr h
  rw [match_skills_empty E resume job hj]
  exact ⟨rfl, rfl, rfl, rfl, rfl, rfl⟩

theorem c2_witness :
    extract_best_format pyExtractor ([] : List Tok) = []
    ∧ (match_skills pyExtractor docPySingle ([] : List Tok)).explanation
        = "No skills found in job description" :=
  ⟨by decide,
    (c2_empty_requirement pyExtractor docPySingle [] (by decide)).2.2.2.2.2⟩

/-- C3: every display string in matched_keywords and missing_keywords is
one of the strings extracted from the requirement (job) document, and is
exactly the requirement map entry for its own lowercase key — the output
is always phrased in the requirement side's observed spelling. -/
theorem c3_requirement_spelling (E : NLPSkillExtractor) (resume job : List Tok) :
    (∀ s ∈ (match_skills E resume job).matched_keywords,
        s ∈ extract_best_format E job
        ∧ mapFind (toLowerMap (extract_best_format E job)) (strLower s) = s)
    ∧ (∀ s ∈ (match_skills E resume job).missing_keywords,
        s ∈ extract_best_format E job
        ∧ mapFind (toLowerMap (extract_best_format E job)) (strLower s) = s) := by
  by_cases h : jobKeys E job = []
  · rw [match_skills_empty E resume job h]
    constructor
    · intro s hs
      exact absurd hs (List.not_mem_nil s)
    · intro s hs
      exact absurd hs (List.not_mem_nil s)
  · rw [match_skills_nonempty E resume job h]
    dsimp only
    constructor
    · intro s hs
      obtain ⟨k, hk, rfl⟩ := mem_matchedDisplay hs
      have hkj : k ∈ jobKeys E job := matchedKeys_sub E resume job k hk
      obtain ⟨hmem, hlow⟩ := mapFind_jobMap_mem hkj
      refine ⟨hmem, ?_⟩
      rw [hlow]
      rfl
    · intro s hs
      obtain ⟨k, hk, rfl⟩ := mem_missingDisplay hs
      have hkj : k ∈ jobKeys E job := missingKeys_sub E resume job k hk
      obtain ⟨hmem, hlow⟩ := mapFind_jobMap_mem hkj
      refine ⟨hmem, ?_⟩
      rw [hlow]
      rfl

theorem c3_witness :
    (∀ s ∈ (match_skills pdExtractor docPySingle docJobPD).matched_keywords,
        s ∈ extract_best_format pdExtractor docJobPD
        ∧ mapFind (toLowerMap (extract_best_format pdExtractor docJobPD)) (strLower s) = s)
    ∧ (∀ s ∈ (match_skills pdExtractor docPySingle docJobPD).missing_keywords,
        s ∈ extract_best_format pdExtractor docJobPD
        ∧ mapFind (toLowerMap (extract_best_format pdExtractor docJobPD)) (strLower s) = s) :=
  c3_requirement_spelling pdExtractor docPySingle docJobPD

/-- C5 (amended): extract returns its display strings in ascending
code-point order with exactly one entry per canonical key (the found keys
are duplicate-free and the output length equals their number); distinct
canonical keys may however produce equal display strings, so a string can
occur twice in the output. -/
theorem c5_extract_sorted_per_key (E : NLPSkillExtractor) (doc : List Tok) :
    List.Sorted StrLe (extract_best_format E doc)
    ∧ ((found_skills E doc).map Prod.fst).Nodup
    ∧ (extract_best_format E doc).length = (found_skills E doc).length :=
  ⟨sortStr_sorted _, nodup_keys_accumulate _, extract_length_eq E doc⟩

/-- C5 (counterexample): over the taxonomy the program itself builds from
its curated skills (which contains both "vue.js" and its derived
variation "vue"), extracting the one-token document "vue" returns the
display string "vue" twice, refuting the claim that no display string
occurs twice. -/
theorem c5_counterexample :
    extract_best_format curatedExtractor docVue = [strVue, strVue]
    ∧ ¬ (extract_best_format curatedExtractor docVue).Nodup :=
  ⟨by decide, by decide⟩

/-- C6: the taxonomy rebuild post-filter keeps exactly the entries of
length greater than one together with "r" (case-insensitive) — so it
preserves the taxonomy invariant and drops every other single-character
entry — and over the filtered taxonomy built from raw entries
containing both "c" and "r", extracting "I know C and R" yields "R" and
no standalone "C". -/
theorem c6_single_letter_filter (skills : List String) :
    (∀ s, s ∈ filterSingle skills ↔ s ∈ skills ∧ (1 < s.length ∨ strLower s = strR))
    ∧ extract_best_format extractorCR docCR = [strRUpper] := by
  constructor
  · intro s
    simp [filterSingle, List.mem_filter, Bool.or_eq_true, decide_eq_true_eq,
      beq_iff_eq]
  · decide

theorem c6_witness :
    (∀ s, s ∈ filterSingle [strC, strR]
        ↔ s ∈ [strC, strR] ∧ (1 < s.length ∨ strLower s = strR))
    ∧ extract_best_format extractorCR docCR = [strRUpper] :=
  c6_single_letter_filter [strC, strR]

/-- C8: in both branches of match_skills, the ratio string is the decimal
rendering of len(matched_keywords) and of
len(matched_keywords) + len(missing_keywords) joined by a slash. -/
theorem c8_match_ratio (E : NLPSkillExtractor) (resume job : List Tok) :
    (match_skills E resume job).match_ratio
      = natRepr (match_skills E resume job).matched_keywords.length ++ strSlash
        ++ natRepr ((match_skills E resume job).matched_keywords.length
            + (match_skills E resume job).missing_keywords.length) := by
  by_cases h : jobKeys E job = []
  · rw [match_skills_empty E resume job h]
    decide
  · rw [match_skills_nonempty E resume job h]
    dsimp only
    rw [matchedDisplay_length, missingDisplay_length, matched_add_missing_length]

/-- C9: extraction is total in the embedding; the empty document yields
the empty list, every accumulated observation list is non-empty (so the
format selector, the only partial step, never fails), and no entry is
dropped on the way to the output. -/
theorem c9_extract_total (E : NLPSkillExtractor) (doc : List Tok) :
    extract_best_format E ([] : List Tok) = []
    ∧ (∀ p ∈ found_skills E doc, p.2 ≠ [])
    ∧ (extract_best_format E doc).length = (found_skills E doc).length :=
  ⟨rfl, fun _ hp => mem_accumulate_obs_ne_nil hp, extract_length_eq E doc⟩

/-! The deduplicated-accumulation variant. -/

theorem dedup_subset :
    ∀ (es : List SkillEvent) (seen : List ((Nat × Nat) × String))
      {e : SkillEvent}, e ∈ dedupEvents seen es → e ∈ es := by
  intro es
  induction es with
  | nil => intro seen e h; cases h
  | cons f es ih =>
    intro seen e h
    rw [dedupEvents] at h
    by_cases hc : seen.contains (f.1, f.2.1)
    · rw [if_pos hc] at h
      exact List.mem_cons_of_mem _ (ih _ h)
    · rw [if_neg hc] at h
      rcases List.mem_cons.mp h with rfl | h2
      · exact List.mem_cons_self _ _
      · exact List.mem_cons_of_mem _ (ih _ h2)

theorem dedup_keys :
    ∀ (es : List SkillEvent) (seen : List ((Nat × Nat) × String)) {k : String},
      k ∈ es.map (fun e => e.2.1) → (∀ pr ∈ seen, pr.2 ≠ k) →
        k ∈ (dedupEvents seen es).map fun e => e.2.1 := by
  intro es
  induction es with
  | nil => intro seen k h _; cases h
  | cons f es ih =>
    intro seen k h hseen
    rcases List.mem_map.mp h with ⟨e, he, hek⟩
    rw [dedupEvents]
    rcases List.mem_cons.mp he with rfl | he2
    · have hc : ¬ (seen.contains (e.1, e.2.1) = true) := by
        intro hc
        have hmem : (e.1, e.2.1) ∈ seen := by simpa using hc
        exact hseen _ hmem hek
      rw [if_neg hc]
      exact List.mem_map.mpr ⟨e, List.mem_cons_self _ _, hek⟩
    · by_cases hc : seen.contains (f.1, f.2.1)
      · rw [if_pos hc]
        exact ih seen (List.mem_map.mpr ⟨e, he2, hek⟩) hseen
      · rw [if_neg hc]
        by_cases hfk : f.2.1 = k
        · exact List.mem_map.mpr ⟨f, List.mem_cons_self _ _, hfk⟩
        · have hseen2 : ∀ pr ∈ (f.1, f.2.1) :: seen, pr.2 ≠ k := by
            intro pr hpr
            rcases List.mem_cons.mp hpr with rfl | hpr2
            · exact hfk
            · exact hseen pr hpr2
          have hrec := ih ((f.1, f.2.1) :: seen)
            (List.mem_map.mpr ⟨e, he2, hek⟩) hseen2
          rcases List.mem_map.mp hrec with ⟨e3, he3, he3k⟩
          exact List.mem_map.mpr ⟨e3, List.mem_cons_of_mem _ he3, he3k⟩

theorem firstSurf_spec {es : List SkillEvent} {k : String}
    (h : k ∈ es.map fun e => e.2.1) :
    ∃ e ∈ es, e.2.1 = k ∧ firstSurf es k = e.2.2 := by
  rcases List.mem_map.mp h with ⟨e0, he0, hk0⟩
  have hs : (es.find? fun e => e.2.1 == k).isSome :=
    List.find?_isSome.mpr ⟨e0, he0, beq_iff_eq.mpr hk0⟩
  obtain ⟨e, he⟩ := Option.isSome_iff_exists.mp hs
  have hp := List.find?_some he
  simp only [beq_iff_eq] at hp
  refine ⟨e, List.mem_of_find?_eq_some he, hp, ?_⟩
  unfold firstSurf
  rw [he]

/-- C7 (amended): deduplicating the recorded observations to one per
(span position, canonical key) pair leaves the extraction output
unchanged, provided every canonical key is observed under a single exact
surface spelling throughout the document.  When spellings differ the
duplicated recording can flip the frequency branch of the format selector
and change the output (see the counterexample). -/
theorem c7_dedup_refinement (E : NLPSkillExtractor) (doc : List Tok)
    (H : ∀ e₁ ∈ recordEvents E doc, ∀ e₂ ∈ recordEvents E doc,
        e₁.2.1 = e₂.2.1 → e₁.2.2 = e₂.2.2) :
    extract_best_format_dedup E doc = extract_best_format E doc := by
  have hpick1 : ∀ p ∈ accumulate (recordEvents E doc),
      pick_best_format p.2 = some (firstSurf (recordEvents E doc) p.1) := by
    intro p hp
    have hobs := mem_accumulate_obs hp
    obtain ⟨e, he, hek, hesurf⟩ := firstSurf_spec (mem_accumulate_key hp)
    apply pick_best_format_const (mem_accumulate_obs_ne_nil hp)
    intro x hx
    rw [hobs] at hx
    rcases List.mem_map.mp hx with ⟨e2, he2, he2x⟩
    obtain ⟨he2es, he2k⟩ := List.mem_filter.mp he2
    simp only [beq_iff_eq] at he2k
    rw [← he2x, hesurf]
    exact H e2 he2es e he (he2k.trans hek.symm)
  have hpick2 : ∀ p ∈ accumulate (dedupEvents [] (recordEvents E doc)),
      pick_best_format p.2 = some (firstSurf (recordEvents E doc) p.1) := by
    intro p hp
    have hobs := mem_accumulate_obs hp
    have hkey : p.1 ∈ (recordEvents E doc).map fun e => e.2.1 := by
      rcases List.mem_map.mp (mem_accumulate_key hp) with ⟨e, he, hek⟩
      exact List.mem_map.mpr ⟨e, dedup_subset _ _ he, hek⟩
    obtain ⟨e, he, hek, hesurf⟩ := firstSurf_spec hkey
    apply pick_best_format_const (mem_accumulate_obs_ne_nil hp)
    intro x hx
    rw [hobs] at hx
    rcases List.mem_map.mp hx with ⟨e2, he2, he2x⟩
    obtain ⟨he2es, he2k⟩ := List.mem_filter.mp he2
    simp only [beq_iff_eq] at he2k
    rw [← he2x, hesurf]
    exact H e2 (dedup_subset _ _ he2es) e he (he2k.trans hek.symm)
  have hkeysmem : ∀ k,
      k ∈ (accumulate (dedupEvents [] (recordEvents E doc))).map Prod.fst
        ↔ k ∈ (accumulate (recordEvents E doc)).map Prod.fst := by
    intro k
    rw [mem_keys_accumulate, mem_keys_accumulate]
    constructor
    · intro hk
      rcases List.mem_map.mp hk with ⟨e, he, hek⟩
      exact List.mem_map.mpr ⟨e, dedup_subset _ _ he, hek⟩
    · intro hk
      exact dedup_keys _ [] hk (by intro pr hpr; cases hpr)
  have hperm :
      ((accumulate (dedupEvents [] (recordEvents E doc))).map Prod.fst).Perm
        ((accumulate (recordEvents E doc)).map Prod.fst) :=
    (List.perm_ext_iff_of_nodup (nodup_keys_accumulate _)
      (nodup_keys_accumulate _)).mpr hkeysmem
  unfold extract_best_format_dedup extract_best_format found_skills
  rw [filterMap_eq_map_of hpick1, filterMap_eq_map_of hpick2]
  apply sortStr_eq_of_perm
  have hm1 : (accumulate (dedupEvents [] (recordEvents E doc))).map
        (fun p => firstSurf (recordEvents E doc) p.1)
      = ((accumulate (dedupEvents [] (recordEvents E doc))).map Prod.fst).map
          (firstSurf (recordEvents E doc)) := by
    rw [List.map_map]
    rfl
  have hm2 : (accumulate (recordEvents E doc)).map
        (fun p => firstSurf (recordEvents E doc) p.1)
      = ((accumulate (recordEvents E doc)).map Prod.fst).map
          (firstSurf (recordEvents E doc)) := by
    rw [List.map_map]
    rfl
  rw [hm1, hm2]
  exact hperm.map _

/-- C7 (counterexample): with taxonomy {"python"} and the two-token
document "python Python", the program returns ["python"] (the duplicated
recording makes the frequency branch fire on the first spelling) while
the deduplicating variant returns ["Python"] (quality branch): the extra
recordings are observable, not harmless. -/
theorem c7_counterexample :
    extract_best_format pyExtractor docPyPair = [strpy]
    ∧ extract_best_format_dedup pyExtractor docPyPair = [strPy]
    ∧ extract_best_format_dedup pyExtractor docPyPair
        ≠ extract_best_format pyExtractor docPyPair :=
  ⟨by decide, by decide, by decide⟩

theorem c7_witness :
    (∀ e₁ ∈ recordEvents pyExtractor docPySingle,
      ∀ e₂ ∈ recordEvents pyExtractor docPySingle,
        e₁.2.1 = e₂.2.1 → e₁.2.2 = e₂.2.2)
    ∧ extract_best_format_dedup pyExtractor docPySingle
        = extract_best_format pyExtractor docPySingle :=
  ⟨by decide, c7_dedup_refinement pyExtractor docPySingle (by decide)⟩

/-! Display-list structure lemmas for the matcher. -/

theorem matchedDisplay_map_strLower (E : NLPSkillExtractor) (rd jd : List Tok) :
    (matchedDisplay E rd jd).map strLower
      = List.insertionSort StrLe (matchedKeys E rd jd) := by
  unfold matchedDisplay
  rw [List.map_map]
  have h : ∀ k ∈ List.insertionSort StrLe (matchedKeys E rd jd),
      (strLower ∘ fun k => mapFind (jobMap E jd) k) k = id k := by
    intro k hk
    exact (mapFind_jobMap_mem (matchedKeys_sub E rd jd k (sortStr_mem.mp hk))).2
  rw [List.map_congr_left h, List.map_id]

theorem missingDisplay_map_strLower (E : NLPSkillExtractor) (rd jd : List Tok) :
    (missingDisplay E rd jd).map strLower
      = List.insertionSort StrLe (missingKeys E rd jd) := by
  unfold missingDisplay
  rw [List.map_map]
  have h : ∀ k ∈ List.insertionSort StrLe (missingKeys E rd jd),
      (strLower ∘ fun k => mapFind (jobMap E jd) k) k = id k := by
    intro k hk
    exact (mapFind_jobMap_mem (missingKeys_sub E rd jd k (sortStr_mem.mp hk))).2
  rw [List.map_congr_left h, List.map_id]

theorem mem_matched_or_missing (E : NLPSkillExtractor) (rd jd : List Tok)
    (k : String) :
    k ∈ matchedKeys E rd jd ∨ k ∈ missingKeys E rd jd ↔ k ∈ jobKeys E jd := by
  constructor
  · rintro (h | h)
    · exact (List.mem_filter.mp h).1
    · exact (List.mem_filter.mp h).1
  · intro h
    by_cases hc : (resumeKeys E rd).contains k
    · exact Or.inl (List.mem_filter.mpr ⟨h, hc⟩)
    · have hcf : (resumeKeys E rd).contains k = false := by
        cases hb : (resumeKeys E rd).contains k
        · rfl
        · exact absurd hb hc
      refine Or.inr (List.mem_filter.mpr ⟨h, ?_⟩)
      show (!(resumeKeys E rd).contains k) = true
      rw [hcf]
      rfl

/-- C10: in the non-degenerate branch, matched_keywords and
missing_keywords are each duplicate-free, disjoint, sorted ascending by
their lowercase keys, and their lowercase forms together are exactly the
requirement key set. -/
theorem c10_partition (E : NLPSkillExtractor) (resume job : List Tok)
    (h : extract_best_format E job ≠ []) :
    (match_skills E resume job).matched_keywords.Nodup
    ∧ (match_skills E resume job).missing_keywords.Nodup
    ∧ (∀ s ∈ (match_skills E resume job).matched_keywords,
        s ∉ (match_skills E resume job).missing_keywords)
    ∧ List.Sorted StrLe ((match_skills E resume job).matched_keywords.map strLower)
    ∧ List.Sorted StrLe ((match_skills E resume job).missing_keywords.map strLower)
    ∧ ∀ k, (k ∈ (match_skills E resume job).matched_keywords.map strLower
          ∨ k ∈ (match_skills E resume job).missing_keywords.map strLower)
        ↔ k ∈ jobKeys E job := by
  have hne : jobKeys E job ≠ [] := fun hc => h (jobKeys_nil_iff.mp hc)
  rw [match_skills_nonempty E resume job hne]
  dsimp only
  have hmatched_nodup : (matchedDisplay E resume job).Nodup := by
    apply List.Nodup.of_map strLower
    rw [matchedDisplay_map_strLower]
    exact (sortStr_perm _).nodup_iff.mpr
      ((jobKeys_nodup E job).filter _)
  have hmissing_nodup : (missingDisplay E resume job).Nodup := by
    apply List.Nodup.of_map strLower
    rw [missingDisplay_map_strLower]
    exact (sortStr_perm _).nodup_iff.mpr
      ((jobKeys_nodup E job).filter _)
  have hmemlow : ∀ s ∈ matchedDisplay E resume job,
      strLower s ∈ matchedKeys E resume job := by
    intro s hs
    have : strLower s ∈ (matchedDisplay E resume job).map strLower :=
      List.mem_map_of_mem strLower hs
    rw [matchedDisplay_map_strLower] at this
    exact sortStr_mem.mp this
  have hmemlow2 : ∀ s ∈ missingDisplay E resume job,
      strLower s ∈ missingKeys E resume job := by
    intro s hs
    have : strLower s ∈ (missingDisplay E resume job).map strLower :=
      List.mem_map_of_mem strLower hs
    rw [missingDisplay_map_strLower] at this
    exact sortStr_mem.mp this
  refine ⟨hmatched_nodup, hmissing_nodup, ?_, ?_, ?_, ?_⟩
  · intro s hs hs2
    have h1 := (List.mem_filter.mp (hmemlow s hs)).2
    have h2 := (List.mem_filter.mp (hmemlow2 s hs2)).2
    rw [Bool.not_eq_true'] at h2
    rw [h2] at h1
    cases h1
  · rw [matchedDisplay_map_strLower]
    exact sortStr_sorted _
  · rw [missingDisplay_map_strLower]
    exact sortStr_sorted _
  · intro k
    rw [matchedDisplay_map_strLower, missingDisplay_map_strLower]
    rw [sortStr_mem, sortStr_mem]
    exact mem_matched_or_missing E resume job k

theorem c10_witness :
    extract_best_format pdExtractor docJobPD ≠ []
    ∧ ((match_skills pdExtractor docPySingle docJobPD).matched_keywords.Nodup
      ∧ (match_skills pdExtractor docPySingle docJobPD).missing_keywords.Nodup
      ∧ (∀ s ∈ (match_skills pdExtractor docPySingle docJobPD).matched_keywords,
          s ∉ (match_skills pdExtractor docPySingle docJobPD).missing_keywords)
      ∧ List.Sorted StrLe
          ((match_skills pdExtractor docPySingle docJobPD).matched_keywords.map strLower)
      ∧ List.Sorted StrLe
          ((match_skills pdExtractor docPySingle docJobPD).missing_keywords.map strLower)
      ∧ ∀ k, (k ∈ (match_skills pdExtractor docPySingle docJobPD).matched_keywords.map strLower
            ∨ k ∈ (match_skills pdExtractor docPySingle docJobPD).missing_keywords.map strLower)
          ↔ k ∈ jobKeys pdExtractor docJobPD) :=
  ⟨by decide, c10_partition pdExtractor docPySingle docJobPD (by decide)⟩

/-- C4: the format selector returns a one-element list unchanged; on a
longer list, when some observation occurs more than once it returns the
earliest observation of maximal count (whose count then exceeds one), and
when every observation is unique it returns the earliest observation of
maximal additive quality score. -/
theorem c4_pick_best_format (x f g : String) (rest : List String) :
    pick_best_format [x] = some x
    ∧ ((∃ s ∈ f :: g :: rest, 1 < (f :: g :: rest).count s) →
        ∃ l₁ l₂ m, pick_best_format (f :: g :: rest) = some m
          ∧ f :: g :: rest = l₁ ++ m :: l₂
          ∧ 1 < (f :: g :: rest).count m
          ∧ (∀ s ∈ f :: g :: rest, (f :: g :: rest).count s ≤ (f :: g :: rest).count m)
          ∧ ∀ t ∈ l₁, (f :: g :: rest).count t < (f :: g :: rest).count m)
    ∧ ((∀ s ∈ f :: g :: rest, (f :: g :: rest).count s ≤ 1) →
        ∃ l₁ l₂ m, pick_best_format (f :: g :: rest) = some m
          ∧ f :: g :: rest = l₁ ++ m :: l₂
          ∧ (∀ s ∈ f :: g :: rest, format_quality_score s ≤ format_quality_score m)
          ∧ ∀ t ∈ l₁, format_quality_score t < format_quality_score m) := by
  refine ⟨rfl, ?_, ?_⟩
  · rintro ⟨s, hs, hcount⟩
    obtain ⟨l₁, l₂, hsplit, hmax, hstrict⟩ :=
      argmaxList_spec (fun s => (f :: g :: rest).count s) (g :: rest) f
    have h1 : 1 < (f :: g :: rest).count
        (argmaxList (fun s => (f :: g :: rest).count s) f (g :: rest)) :=
      lt_of_lt_of_le hcount (hmax s hs)
    refine ⟨l₁, l₂, _, ?_, hsplit, h1, hmax, hstrict⟩
    simp only [pick_best_format]
    rw [if_pos h1]
  · intro hall
    obtain ⟨l₁, l₂, hsplit, hmax, hstrict⟩ :=
      argmaxList_spec format_quality_score (g :: rest) f
    have hnot : ¬ 1 < (f :: g :: rest).count
        (argmaxList (fun s => (f :: g :: rest).count s) f (g :: rest)) :=
      not_lt.mpr (hall _ (argmaxList_mem _ f (g :: rest)))
    refine ⟨l₁, l₂, _, ?_, hsplit, hmax, hstrict⟩
    simp only [pick_best_format]
    rw [if_neg hnot]

theorem c4_witness :
    pick_best_format [strpy] = some strpy
    ∧ ((∃ s ∈ strpy :: strPYUP :: [strPy], 1 < (strpy :: strPYUP :: [strPy]).count s) →
        ∃ l₁ l₂ m, pick_best_format (strpy :: strPYUP :: [strPy]) = some m
          ∧ strpy :: strPYUP :: [strPy] = l₁ ++ m :: l₂
          ∧ 1 < (strpy :: strPYUP :: [strPy]).count m
          ∧ (∀ s ∈ strpy :: strPYUP :: [strPy],
              (strpy :: strPYUP :: [strPy]).count s
                ≤ (strpy :: strPYUP :: [strPy]).count m)
          ∧ ∀ t ∈ l₁, (strpy :: strPYUP :: [strPy]).count t
              < (strpy :: strPYUP :: [strPy]).count m)
    ∧ ((∀ s ∈ strpy :: strPYUP :: [strPy], (strpy :: strPYUP :: [strPy]).count s ≤ 1) →
        ∃ l₁ l₂ m, pick_best_format (strpy :: strPYUP :: [strPy]) = some m
          ∧ strpy :: strPYUP :: [strPy] = l₁ ++ m :: l₂
          ∧ (∀ s ∈ strpy :: strPYUP :: [strPy],
              format_quality_score s ≤ format_quality_score m)
          ∧ ∀ t ∈ l₁, format_quality_score t < format_quality_score m) :=
  c4_pick_best_format strpy strpy strPYUP [strPy]

/-- C1: when the requirement text yields skills, the returned score is
round(100·|matched|/|requirement keys|, 2); the score always lies in
[0, 100]; and (for requirement key sets below the 20000-key threshold at
which two-decimal rounding could reach 100 early — far above any real
taxonomy) the score equals 100 exactly when missing_keywords is empty and
the requirement skill set is non-empty. -/
theorem c1_score_law (E : NLPSkillExtractor) (resume job : List Tok)
    (hb : (extract_best_format E job).length < 20000) :
    ((extract_best_format E job ≠ []) →
      (match_skills E resume job).score
        = pyRound2 (100 * ((match_skills E resume job).matched_keywords.length : ℚ)
            / (((match_skills E resume job).matched_keywords.length : ℚ)
              + ((match_skills E resume job).missing_keywords.length : ℚ))))
    ∧ 0 ≤ (match_skills E resume job).score
    ∧ (match_skills E resume job).score ≤ 100
    ∧ ((match_skills E resume job).score = 100
        ↔ ((match_skills E resume job).missing_keywords = []
            ∧ extract_best_format E job ≠ [])) := by
  by_cases hempty : jobKeys E job = []
  · have hjob : extract_best_format E job = [] := jobKeys_nil_iff.mp hempty
    rw [match_skills_empty E resume job hempty]
    refine ⟨fun hc => absurd hjob hc, le_refl 0, by norm_num [empty_result], ?_⟩
    constructor
    · intro h0
      have : (0:ℚ) = 100 := h0
      norm_num at this
    · rintro ⟨_, hne⟩
      exact absurd hjob hne
  · rw [match_skills_nonempty E resume job hempty]
    dsimp only
    have hjobne : extract_best_format E job ≠ [] :=
      fun hc => hempty (jobKeys_nil_iff.mpr hc)
    have hn_pos : 0 < (jobKeys E job).length := List.length_pos.mpr hempty
    have hmn : (matchedKeys E resume job).length ≤ (jobKeys E job).length :=
      List.length_filter_le _ _
    have hn_le : (jobKeys E job).length ≤ (extract_best_format E job).length := by
      unfold jobKeys jobMap
      rw [List.length_map]
      exact length_toLowerMap_le _
    have hn20 : (jobKeys E job).length < 20000 := lt_of_le_of_lt hn_le hb
    have hnq : (0:ℚ) < ((jobKeys E job).length : ℚ) := by exact_mod_cast hn_pos
    have hsum : (matchedKeys E resume job).length + (missingKeys E resume job).length
        = (jobKeys E job).length := matched_add_missing_length E resume job
    have hms : matchScore E resume job
        = ((matchedKeys E resume job).length : ℚ) / ((jobKeys E job).length : ℚ) * 100 :=
      rfl
    have hq0 : 0 ≤ matchScore E resume job := by
      rw [hms]
      positivity
    have hq100 : matchScore E resume job ≤ 100 := by
      rw [hms]
      have h1 : ((matchedKeys E resume job).length : ℚ)
          / ((jobKeys E job).length : ℚ) ≤ 1 :=
        (div_le_one hnq).mpr (by exact_mod_cast hmn)
      linarith
    refine ⟨?_, ?_, ?_, ?_⟩
    · intro _
      rw [matchedDisplay_length, missingDisplay_length]
      congr 1
      have hsumq : ((matchedKeys E resume job).length : ℚ)
          + ((missingKeys E resume job).length : ℚ)
          = ((jobKeys E job).length : ℚ) := by exact_mod_cast hsum
      rw [hsumq, hms, div_mul_eq_mul_div, mul_comm]
    · have hr : 0 ≤ roundHalfEven (matchScore E resume job * 100) :=
        roundHalfEven_nonneg (by nlinarith)
      simp only [pyRound2]
      apply div_nonneg _ (by norm_num)
      exact_mod_cast hr
    · have hrle : roundHalfEven (matchScore E resume job * 100) ≤ (10000 : ℤ) :=
        roundHalfEven_le_of_le (by push_cast; nlinarith)
      simp only [pyRound2]
      rw [div_le_iff (by norm_num : (0:ℚ) < 100)]
      norm_num
      exact_mod_cast hrle
    · constructor
      · intro hsc
        refine ⟨?_, hjobne⟩
        have hRHE : roundHalfEven (matchScore E resume job * 100) = 10000 := by
          simp only [pyRound2] at hsc
          rw [div_eq_iff (by norm_num : (100:ℚ) ≠ 0)] at hsc
          have h2 : ((roundHalfEven (matchScore E resume job * 100) : ℤ) : ℚ)
              = ((10000 : ℤ) : ℚ) := by push_cast; linarith
          exact_mod_cast h2
        have hhalf := roundHalfEven_le_add_half (matchScore E resume job * 100)
        rw [hRHE] at hhalf
        have hmeq : (matchedKeys E resume job).length = (jobKeys E job).length := by
          by_contra hne2
          have hlt : (matchedKeys E resume job).length < (jobKeys E job).length :=
            lt_of_le_of_ne hmn hne2
          have hmq : ((matchedKeys E resume job).length : ℚ)
              ≤ ((jobKeys E job).length : ℚ) - 1 := by
            have h3 : ((matchedKeys E resume job).length : ℚ) + 1
                ≤ ((jobKeys E job).length : ℚ) := by exact_mod_cast hlt
            linarith
          have hexp : matchScore E resume job * 100
              = ((matchedKeys E resume job).length : ℚ)
                / ((jobKeys E job).length : ℚ) * 10000 := by
            rw [hms]
            ring
          rw [hexp] at hhalf
          have hdiv : ((matchedKeys E resume job).length : ℚ)
              / ((jobKeys E job).length : ℚ)
              ≤ (((jobKeys E job).length : ℚ) - 1) / ((jobKeys E job).length : ℚ) := by
            gcongr
          have h4 : ((matchedKeys E resume job).length : ℚ)
              / ((jobKeys E job).length : ℚ) * 10000
              ≤ (((jobKeys E job).length : ℚ) - 1) / ((jobKeys E job).length : ℚ) * 10000 :=
            mul_le_mul_of_nonneg_right hdiv (by norm_num)
          have hexpand : (((jobKeys E job).length : ℚ) - 1)
              / ((jobKeys E job).length : ℚ) * 10000
              = 10000 - 10000 / ((jobKeys E job).length : ℚ) := by
            rw [sub_div, div_self (ne_of_gt hnq)]
            ring
          rw [hexpand] at h4
          have hnineq : 10000 / ((jobKeys E job).length : ℚ) ≤ 1 / 2 := by linarith
          rw [div_le_iff hnq] at hnineq
          have h20000 : (20000:ℚ) ≤ ((jobKeys E job).length : ℚ) := by linarith
          have h5 : (20000:ℕ) ≤ (jobKeys E job).length := by exact_mod_cast h20000
          omega
        have hmiss0 : (missingKeys E resume job).length = 0 := by omega
        have hmissnil : missingKeys E resume job = [] :=
          List.eq_nil_of_length_eq_zero hmiss0
        show missingDisplay E resume job = []
        unfold missingDisplay
        rw [hmissnil]
        rfl
      · rintro ⟨hmiss, _⟩
        have hmk : missingKeys E resume job = [] := by
          unfold missingDisplay at hmiss
          rw [List.map_eq_nil_iff] at hmiss
          exact sortStr_eq_nil.mp hmiss
        have hmiss0 : (missingKeys E resume job).length = 0 := by rw [hmk]; rfl
        have hmeq : (matchedKeys E resume job).length = (jobKeys E job).length := by
          omega
        have hq : matchScore E resume job = 100 := by
          rw [hms, hmeq, div_self (ne_of_gt hnq)]
          norm_num
        rw [hq]
        show pyRound2 100 = 100
        simp only [pyRound2]
        have h1 : (100:ℚ) * 100 = ((10000:ℤ):ℚ) := by norm_num
        rw [h1, roundHalfEven_intCast]
        norm_num

theorem c1_witness :
    (extract_best_format pdExtractor docJobPD).length < 20000
    ∧ 0 ≤ (match_skills pdExtractor docPySingle docJobPD).score
    ∧ (match_skills pdExtractor docPySingle docJobPD).score ≤ 100 :=
  ⟨by decide,
    (c1_score_law pdExtractor docPySingle docJobPD (by decide)).2.1,
    (c1_score_law pdExtractor docPySingle docJobPD (by decide)).2.2.1⟩
